import Mathlib

/-!
Verification of the `futures-rs/framed` crate core against its specification.

Shallow embedding: bytes are `Nat`, byte buffers are `List Nat`,
possibly-uninitialized memory cells (`MaybeUninit<u8>`) are `Option Nat`
(`none` = uninitialized), fallible operations return `Except`/`Option`
(`Option.none` standing for a panic), and a single `poll` of an async I/O
object is a function from the data handed to it to a `PollR` result.
-/

deriving instance DecidableEq for Except

namespace Framed

/-- Model of `std::io::Error` as constructed by `io::Error::new(kind, msg)`;
only the kind tag and the message are observable in the code under study. -/
structure IOError where
  kind : String
  msg : String
deriving Repr, DecidableEq

/-- The error built by the default `Decoder::decode_eof` at
`src/codec.rs:149`: `io::Error::new(io::ErrorKind::Other, "bytes remaining on stream")`. -/
def trailingBytesError : IOError :=
  { kind := "Other", msg := "bytes remaining on stream" }

/-- Model of `Poll<α>` from `std::task`. -/
inductive PollR (α : Type) where
  | ready : α → PollR α
  | pending : PollR α
deriving Repr, DecidableEq

/-! ## `Decoder::decode_eof` default implementation (`src/codec.rs:142-153`)

A decoder's `decode` method mutates the buffer and returns
`Result<Option<Item>, Error>`; we model it as a pure function from the buffer
to the pair (result, buffer left behind).  The default `decode_eof` calls
`decode` exactly once, so the codec's internal `self` state is irrelevant to
its behaviour and is not threaded.  The trait requires `Error: From<io::Error>`;
`fromIOErr` is that conversion. -/

/-- The default `decode_eof` body:
```
match self.decode(buf)? {
    Some(frame) => Ok(Some(frame)),
    None => {
        if buf.is_empty() { Ok(None) }
        else { Err(io::Error::new(Other, "bytes remaining on stream").into()) }
    }
}
```
Note `buf.is_empty()` inspects the buffer *after* the `decode` call. -/
def decodeEofDefault {α ε : Type} (decode : List Nat → Except ε (Option α) × List Nat)
    (fromIOErr : IOError → ε) (buf : List Nat) : Except ε (Option α) × List Nat :=
  match decode buf with
  | (Except.error e, buf') => (Except.error e, buf')
  | (Except.ok (some frame), buf') => (Except.ok (some frame), buf')
  | (Except.ok none, buf') =>
      if buf'.isEmpty then (Except.ok none, buf')
      else (Except.error (fromIOErr trailingBytesError), buf')

/-! ## `BytesCodec` (`src/bytes_codec.rs`)

`BytesMut` buffers are byte lists; `split_to(len)` with `len = buf.len()`
hands the whole contents over and leaves the buffer empty; `reserve` only
affects capacity, which the `List` model does not track. -/

namespace BytesCodec

/-- `BytesCodec::decode`: a non-empty buffer is split off whole as the frame;
an empty buffer yields `Ok(None)`. -/
def decode (buf : List Nat) : Except IOError (Option (List Nat)) × List Nat :=
  if buf.isEmpty then (Except.ok none, buf)
  else (Except.ok (some buf), [])

/-- `BytesCodec::encode` (both the `Bytes` and the `BytesMut` impl):
`buf.reserve(data.len()); buf.put(data)` — append the frame to the buffer. -/
def encode (data : List Nat) (buf : List Nat) : Except IOError Unit × List Nat :=
  (Except.ok (), buf ++ data)

end BytesCodec

/-! ## `ReadBuf` (`src/util.rs:29-107`)

The backing region `&mut [MaybeUninit<u8>]` is a `List (Option Nat)`;
`none` is an uninitialized cell. -/

structure ReadBuf where
  buf : List (Option Nat)
  filled : Nat
  initialized : Nat
deriving Repr, DecidableEq

namespace ReadBuf

/-- `ReadBuf::uninit`: wrap a buffer, tracking nothing as filled or initialized. -/
def uninit (b : List (Option Nat)) : ReadBuf :=
  { buf := b, filled := 0, initialized := 0 }

/-- `ReadBuf::capacity`. -/
def capacity (rb : ReadBuf) : Nat := rb.buf.length

/-- `ReadBuf::filled`: the initialized prefix `buf[..filled]`, viewed as bytes
(`slice_assume_init`; the invariant guarantees every cell there is `some`). -/
def filledView (rb : ReadBuf) : List Nat :=
  (rb.buf.take rb.filled).map (fun o => o.getD 0)

/-- `ReadBuf::remaining` = `capacity() - filled`. -/
def remaining (rb : ReadBuf) : Nat := rb.capacity - rb.filled

/-- `ptr.write_bytes(0, hi - lo)` on `buf[lo..hi]`: every cell in `[lo, hi)`
becomes an initialized zero byte; the rest is untouched. -/
def zeroTo (b : List (Option Nat)) (lo hi : Nat) : List (Option Nat) :=
  b.take lo ++ List.replicate (hi - lo) (some 0) ++ b.drop hi

/-- `ReadBuf::initialize_unfilled_to(n)` (`src/util.rs:81-100`).
`Option.none` models the `assert!(self.remaining() >= n)` panic.  On success
it returns the updated `ReadBuf` together with the returned slice
`&mut buf[filled..filled+n]` viewed as bytes (`slice_assume_init_mut`). -/
def initUnfilledTo (rb : ReadBuf) (n : Nat) : Option (ReadBuf × List Nat) :=
  if rb.remaining < n then none
  else
    let e := rb.filled + n
    let buf' := if rb.initialized < e then zeroTo rb.buf rb.initialized e else rb.buf
    let init' := if rb.initialized < e then e else rb.initialized
    some ({ buf := buf', filled := rb.filled, initialized := init' },
          ((buf'.drop rb.filled).take n).map (fun o => o.getD 0))

/-- `ReadBuf::initialize_unfilled` = `initialize_unfilled_to(remaining())`
(`src/util.rs:70-72`). -/
def initUnfilled (rb : ReadBuf) : Option (ReadBuf × List Nat) :=
  rb.initUnfilledTo rb.remaining

/-- The `ReadBuf` invariant: `filled ≤ initialized ≤ capacity`, and every cell
below `initialized` holds a defined byte. -/
def wf (rb : ReadBuf) : Prop :=
  rb.filled ≤ rb.initialized ∧ rb.initialized ≤ rb.buf.length ∧
    ∀ i, i < rb.initialized → (rb.buf.getD i Option.none).isSome = true

instance (rb : ReadBuf) : Decidable rb.wf := by
  unfold wf; infer_instance

/-- The buffer contents produced by a successful `initialize_unfilled_to(n)` call. -/
def zbuf (rb : ReadBuf) (n : Nat) : List (Option Nat) :=
  if rb.initialized < rb.filled + n then zeroTo rb.buf rb.initialized (rb.filled + n) else rb.buf

end ReadBuf

/-! ## `poll_read_buf` (`src/util.rs:129-163`)

The growable `BufMut` buffer `B` is modelled by its filled contents and its
total capacity; `chunk_mut()` is the spare tail region (length
`cap - data.length`), `has_remaining_mut()` is `data.length < cap`, and
`advance_mut(n)` extends the logical length over `n` bytes the reader wrote
in place.

The async I/O object's single `poll_read(cx, slice)` is a function from the
byte slice handed to it to `pending`, an error, or `ready (ok (n, w))` where
`n` is the reported count and `w` is the slice contents after the read (a
lawful reader writes only within the slice, so `w.length = slice.length` and
`n ≤ slice.length`; both are hypotheses where needed, not baked in).

The defensive `assert_eq!(ptr, buf.filled().as_ptr())` compares pointer
identities, which the value-level model cannot observe; it is the one line of
the function not reflected here.  The result `Option.none` models a panic
(none occurs: `initUnfilled` is total). -/

structure BytesMutModel where
  data : List Nat
  cap : Nat
deriving Repr, DecidableEq

def poll_read_buf (io : List Nat → PollR (Except IOError (Nat × List Nat)))
    (buf : BytesMutModel) : Option (PollR (Except IOError Nat) × BytesMutModel) :=
  if buf.cap - buf.data.length = 0 then some (PollR.ready (Except.ok 0), buf)
  else
    match (ReadBuf.uninit (List.replicate (buf.cap - buf.data.length) Option.none)).initUnfilled with
    | none => none
    | some (_, mutBuf) =>
      match io mutBuf with
      | PollR.pending => some (PollR.pending, buf)
      | PollR.ready (Except.error e) => some (PollR.ready (Except.error e), buf)
      | PollR.ready (Except.ok (n, w)) =>
          some (PollR.ready (Except.ok n), { buf with data := buf.data ++ w.take n })

/-! ## `poll_write_buf` (`src/util.rs:165-183`)

The `Buf` on the write side is a sequence of contiguous segments;
`remaining()` is the total byte count, `chunks_vectored` over a 64-slot
`IoSlice` array presents the first (at most) `MAX_BUFS` segments, and
`advance(n)` drops `n` bytes from the front across segments.  The I/O
object's `poll_write_vectored` is a function from the presented segment list
to `pending`, an error, or the accepted byte count. -/

structure BufModel where
  chunks : List (List Nat)
deriving Repr, DecidableEq

/-- `const MAX_BUFS: usize = 64`. -/
def MAX_BUFS : Nat := 64

/-- `Buf::remaining()`: total unread bytes across the segments. -/
def BufModel.remainingBytes (b : BufModel) : Nat := b.chunks.flatten.length

/-- `Buf::advance(cnt)`: drop `cnt` bytes from the front, segment by segment. -/
def advanceChunks : List (List Nat) → Nat → List (List Nat)
  | [], _ => []
  | c :: rest, n => if n < c.length then c.drop n :: rest else advanceChunks rest (n - c.length)

def poll_write_buf (io : List (List Nat) → PollR (Except IOError Nat))
    (buf : BufModel) : PollR (Except IOError Nat) × BufModel :=
  if buf.remainingBytes = 0 then (PollR.ready (Except.ok 0), buf)
  else
    match io (buf.chunks.take MAX_BUFS) with
    | PollR.pending => (PollR.pending, buf)
    | PollR.ready (Except.error e) => (PollR.ready (Except.error e), buf)
    | PollR.ready (Except.ok n) => (PollR.ready (Except.ok n), ⟨advanceChunks buf.chunks n⟩)

/-! ## Helper lemmas -/

namespace ReadBuf

theorem zeroTo_length {b : List (Option Nat)} {lo hi : Nat} (h1 : lo ≤ hi) (h2 : hi ≤ b.length) :
    (zeroTo b lo hi).length = b.length := by
  simp only [zeroTo, List.length_append, List.length_take, List.length_replicate,
    List.length_drop]
  omega

theorem zeroTo_getElem {b : List (Option Nat)} {lo hi : Nat} (i : Nat)
    (h1 : lo ≤ hi) (h2 : hi ≤ b.length) :
    (zeroTo b lo hi)[i]? =
      if i < lo then b[i]? else if i < hi then some (some 0) else b[i]? := by
  have hlo : (b.take lo).length = lo := by
    simp only [List.length_take]; omega
  have hfront : (b.take lo ++ List.replicate (hi - lo) (some 0)).length = hi := by
    simp only [List.length_append, List.length_take, List.length_replicate]; omega
  unfold zeroTo
  by_cases hc1 : i < lo
  · rw [List.getElem?_append_left (by omega), List.getElem?_append_left (by omega),
      List.getElem?_take, if_pos hc1, if_pos hc1]
  · rw [if_neg hc1]
    by_cases hc2 : i < hi
    · rw [List.getElem?_append_left (by omega), List.getElem?_append_right (by omega), hlo,
        List.getElem?_replicate, if_pos (by omega), if_pos hc2]
    · rw [List.getElem?_append_right (by omega), hfront, List.getElem?_drop, if_neg hc2]
      congr 1
      omega

theorem initUnfilledTo_none_iff (rb : ReadBuf) (n : Nat) :
    rb.initUnfilledTo n = none ↔ rb.remaining < n := by
  unfold initUnfilledTo
  split <;> simp [*]

theorem initUnfilledTo_some_eq (rb : ReadBuf) (n : Nat) (h : ¬ rb.remaining < n) :
    rb.initUnfilledTo n =
      some ({ buf := zbuf rb n, filled := rb.filled,
              initialized := max rb.initialized (rb.filled + n) },
            (((zbuf rb n).drop rb.filled).take n).map (fun o => o.getD 0)) := by
  by_cases hlt : rb.initialized < rb.filled + n
  · simp only [initUnfilledTo, zbuf, if_neg h, if_pos hlt]
    rw [Nat.max_eq_right (by omega)]
  · simp only [initUnfilledTo, zbuf, if_neg h, if_neg hlt]
    rw [Nat.max_eq_left (by omega)]

theorem zbuf_length {rb : ReadBuf} {n : Nat} (hwf : rb.wf) (hn : n ≤ rb.remaining) :
    (zbuf rb n).length = rb.buf.length := by
  obtain ⟨hfi, hil, -⟩ := hwf
  have hcap : rb.filled + n ≤ rb.buf.length := by
    unfold remaining capacity at hn; omega
  unfold zbuf
  split
  · exact zeroTo_length (by omega) hcap
  · rfl

theorem zbuf_getElem_low {rb : ReadBuf} {n : Nat} (hwf : rb.wf) (hn : n ≤ rb.remaining)
    {i : Nat} (hi : i < rb.initialized) :
    (zbuf rb n)[i]? = rb.buf[i]? := by
  obtain ⟨hfi, hil, -⟩ := hwf
  have hcap : rb.filled + n ≤ rb.buf.length := by
    unfold remaining capacity at hn; omega
  unfold zbuf
  split
  · rw [zeroTo_getElem i (by omega) hcap, if_pos hi]
  · rfl

theorem zbuf_getElem_mid {rb : ReadBuf} {n : Nat} (hwf : rb.wf) (hn : n ≤ rb.remaining)
    {i : Nat} (hlo : rb.initialized ≤ i) (hhi : i < rb.filled + n) :
    (zbuf rb n)[i]? = some (some 0) := by
  obtain ⟨hfi, hil, -⟩ := hwf
  have hcap : rb.filled + n ≤ rb.buf.length := by
    unfold remaining capacity at hn; omega
  unfold zbuf
  rw [if_pos (by omega), zeroTo_getElem i (by omega) hcap, if_neg (by omega), if_pos hhi]

/-- Master lemma: every fact the claims need about a successful
`initialize_unfilled_to(n)` call on a well-formed `ReadBuf`. -/
theorem initUnfilledTo_props {rb : ReadBuf} {n : Nat} {rb' : ReadBuf} {s : List Nat}
    (hwf : rb.wf) (heq : rb.initUnfilledTo n = some (rb', s)) :
    rb'.filled = rb.filled ∧
    rb'.buf.length = rb.buf.length ∧
    rb'.initialized = max rb.initialized (rb.filled + n) ∧
    rb'.wf ∧
    s.length = n ∧
    (∀ i, i < n → rb'.buf[rb.filled + i]? = some (some (s.getD i 0))) ∧
    (∀ i, rb.initialized ≤ i → i < rb.filled + n → rb'.buf[i]? = some (some 0)) ∧
    (∀ i, i < rb.initialized → rb'.buf[i]? = rb.buf[i]?) := by
  have hn : n ≤ rb.remaining := by
    rcases Nat.lt_or_ge rb.remaining n with hlt | hge
    · rw [(initUnfilledTo_none_iff rb n).mpr hlt] at heq
      cases heq
    · omega
  obtain ⟨hfi, hil, hcells⟩ := hwf
  have hcap : rb.filled + n ≤ rb.buf.length := by
    unfold remaining capacity at hn; omega
  rw [initUnfilledTo_some_eq rb n (by omega)] at heq
  simp only [Option.some.injEq, Prod.mk.injEq] at heq
  obtain ⟨hrb, hs⟩ := heq
  subst hrb
  subst hs
  have hzlen : (zbuf rb n).length = rb.buf.length := zbuf_length ⟨hfi, hil, hcells⟩ hn
  have hsel : ∀ i, i < n →
      ((((zbuf rb n).drop rb.filled).take n).map (fun o => o.getD 0))[i]? =
        Option.map (fun o => o.getD 0) (zbuf rb n)[rb.filled + i]? := by
    intro i hi
    rw [List.getElem?_map, List.getElem?_take, if_pos hi, List.getElem?_drop]
  have hcell : ∀ i, i < n → ∃ v, (zbuf rb n)[rb.filled + i]? = some (some v) := by
    intro i hi
    rcases Nat.lt_or_ge (rb.filled + i) rb.initialized with hlo | hhi
    · have hb : rb.filled + i < rb.buf.length := by omega
      have := hcells (rb.filled + i) hlo
      rw [List.getD_eq_getElem _ _ hb] at this
      obtain ⟨v, hv⟩ := Option.isSome_iff_exists.mp this
      refine ⟨v, ?_⟩
      rw [zbuf_getElem_low ⟨hfi, hil, hcells⟩ hn hlo, List.getElem?_eq_getElem hb, hv]
    · exact ⟨0, zbuf_getElem_mid ⟨hfi, hil, hcells⟩ hn hhi (by omega)⟩
  refine ⟨rfl, hzlen, rfl, ?_, ?_, ?_, ?_, ?_⟩
  · refine ⟨by simp only; omega, by simp only; omega, ?_⟩
    intro i hi
    simp only at hi ⊢
    rcases Nat.lt_or_ge i rb.initialized with hlo | hmid
    · have hb : i < (zbuf rb n).length := by omega
      have := hcells i hlo
      rw [List.getD_eq_getElem _ _ (by omega : i < rb.buf.length)] at this
      rw [List.getD_eq_getElem _ _ hb]
      have hlow := zbuf_getElem_low ⟨hfi, hil, hcells⟩ hn hlo
      rw [List.getElem?_eq_getElem hb,
        List.getElem?_eq_getElem (by omega : i < rb.buf.length)] at hlow
      rw [Option.some_inj.mp hlow]
      exact this
    · have hlt : i < rb.filled + n := by omega
      have hb : i < (zbuf rb n).length := by omega
      have hmidv := zbuf_getElem_mid ⟨hfi, hil, hcells⟩ hn hmid hlt
      rw [List.getD_eq_getElem _ _ hb]
      rw [List.getElem?_eq_getElem hb] at hmidv
      rw [Option.some_inj.mp hmidv]
      rfl
  · simp only [List.length_map, List.length_take, List.length_drop]
    omega
  · intro i hi
    obtain ⟨v, hv⟩ := hcell i hi
    have hgd : ((((zbuf rb n).drop rb.filled).take n).map (fun o => o.getD 0)).getD i 0 = v := by
      rw [List.getD_eq_getElem?_getD, hsel i hi, hv]
      rfl
    simp only
    rw [hgd]
    exact hv
  · intro i hlo hhi
    exact zbuf_getElem_mid ⟨hfi, hil, hcells⟩ hn hlo hhi
  · intro i hi
    exact zbuf_getElem_low ⟨hfi, hil, hcells⟩ hn hi

/-- What `poll_read_buf` builds: a `ReadBuf` over the fully uninitialized
spare region, then `initialize_unfilled`, which zero-fills the whole region
and returns it as the slice handed to the reader. -/
theorem uninit_initUnfilled_eq (k : Nat) :
    (uninit (List.replicate k Option.none)).initUnfilled =
      some ({ buf := List.replicate k (some 0), filled := 0, initialized := k },
            List.replicate k 0) := by
  have hrem : (uninit (List.replicate k Option.none)).remaining = k := by
    simp [uninit, remaining, capacity]
  unfold initUnfilled
  rw [hrem, initUnfilledTo_some_eq _ _ (by omega)]
  rcases Nat.eq_zero_or_pos k with hk | hk
  · subst hk
    rfl
  · unfold zbuf zeroTo
    simp [uninit, hk, List.take_replicate, List.drop_replicate, List.map_replicate,
      Nat.max_eq_right (Nat.zero_le k)]

end ReadBuf

/-- `Buf::advance(n)` drops exactly the first `n` bytes of the flattened
segment sequence. -/
theorem advanceChunks_flatten (cs : List (List Nat)) (n : Nat) :
    (advanceChunks cs n).flatten = cs.flatten.drop n := by
  induction cs generalizing n with
  | nil => simp [advanceChunks]
  | cons c rest ih =>
    unfold advanceChunks
    split
    · rename_i h
      rw [List.flatten_cons, List.flatten_cons, List.drop_append_of_le_length (by omega)]
    · rename_i h
      rw [List.flatten_cons]
      have h2 : c.length + (n - c.length) = n := by omega
      calc (advanceChunks rest (n - c.length)).flatten
          = rest.flatten.drop (n - c.length) := ih _
        _ = (c ++ rest.flatten).drop (c.length + (n - c.length)) :=
            (List.drop_append _).symm
        _ = (c ++ rest.flatten).drop n := by rw [h2]

/-! ## Claim theorems -/

/-- Claim C1: The default `decode_eof` of the `Decoder` trait, for every buffer
state and every decode result: a frame from `decode` is returned as-is;
`Ok(None)` with an empty buffer (after the `decode` call) gives `Ok(None)`;
`Ok(None)` with a non-empty buffer gives the trailing-bytes error; an error
from `decode` is propagated. -/
theorem decode_eof_default_cases {α ε : Type}
    (decode : List Nat → Except ε (Option α) × List Nat) (fromIOErr : IOError → ε)
    (buf : List Nat) :
    (∀ f b, decode buf = (Except.ok (some f), b) →
      decodeEofDefault decode fromIOErr buf = (Except.ok (some f), b)) ∧
    (∀ b, decode buf = (Except.ok none, b) → b = [] →
      decodeEofDefault decode fromIOErr buf = (Except.ok none, b)) ∧
    (∀ b, decode buf = (Except.ok none, b) → b ≠ [] →
      decodeEofDefault decode fromIOErr buf = (Except.error (fromIOErr trailingBytesError), b)) ∧
    (∀ e b, decode buf = (Except.error e, b) →
      decodeEofDefault decode fromIOErr buf = (Except.error e, b)) := by
  refine ⟨?_, ?_, ?_, ?_⟩
  · intro f b h
    unfold decodeEofDefault
    rw [h]
  · intro b h hb
    subst hb
    unfold decodeEofDefault
    rw [h]
    rfl
  · intro b h hb
    unfold decodeEofDefault
    rw [h]
    simp [List.isEmpty_iff, hb]
  · intro e b h
    unfold decodeEofDefault
    rw [h]

/-- Witness for C1: all four branches exercised at concrete decoders and
buffers. -/
theorem decode_eof_default_cases_witness :
    decodeEofDefault BytesCodec.decode id [1, 2] = (Except.ok (some [1, 2]), []) ∧
    decodeEofDefault BytesCodec.decode id [] = (Except.ok none, []) ∧
    decodeEofDefault (fun b => (Except.ok (none : Option (List Nat)), b)) id [1] =
      (Except.error (id trailingBytesError), [1]) ∧
    decodeEofDefault (fun b => (Except.error (trailingBytesError) , b) :
        List Nat → Except IOError (Option (List Nat)) × List Nat) id [] =
      (Except.error trailingBytesError, []) := by
  refine ⟨?_, ?_, ?_, ?_⟩
  · exact (decode_eof_default_cases BytesCodec.decode id [1, 2]).1 [1, 2] [] rfl
  · exact (decode_eof_default_cases BytesCodec.decode id []).2.1 [] rfl rfl
  · exact (decode_eof_default_cases (fun b => (Except.ok none, b)) id [1]).2.2.1 [1]
      rfl (by decide)
  · exact (decode_eof_default_cases
      (fun b => (Except.error (trailingBytesError), b)) id []).2.2.2 trailingBytesError [] rfl

/-- Claim C8 counterexample: The round-trip claim fails for the empty byte
sequence: `encode` appends nothing, and `decode` on the (still empty) buffer
returns `Ok(None)`, not `Ok(Some([]))`. -/
theorem bytesCodec_roundtrip_empty_cex :
    BytesCodec.decode (BytesCodec.encode ([] : List Nat) []).2 ≠
      (Except.ok (some ([] : List Nat)), ([] : List Nat)) := by
  decide

/-- Claim C8 amended: For every **non-empty** byte sequence `b`, encoding `b`
into an empty buffer and then decoding returns `Ok(Some(b))` and leaves the
buffer empty. -/
theorem bytesCodec_roundtrip (b : List Nat) (h : b ≠ []) :
    BytesCodec.decode (BytesCodec.encode b []).2 =
      (Except.ok (some b), ([] : List Nat)) := by
  unfold BytesCodec.encode BytesCodec.decode
  simp only [List.nil_append]
  rw [if_neg (by simp [List.isEmpty_iff, h])]

/-- Witness for C8 (amended) at `b = [3, 1]`. -/
theorem bytesCodec_roundtrip_witness :
    BytesCodec.decode (BytesCodec.encode [3, 1] []).2 =
      (Except.ok (some [3, 1]), ([] : List Nat)) :=
  bytesCodec_roundtrip [3, 1] (by decide)

/-- Claim C9: `BytesCodec::decode` never returns an error; a non-empty buffer is
returned whole as the frame with the buffer left empty, and an empty buffer
yields `Ok(None)` with the buffer unchanged. -/
theorem bytesCodec_decode_spec (buf : List Nat) :
    (∀ e, (BytesCodec.decode buf).1 ≠ Except.error e) ∧
    (buf ≠ [] → BytesCodec.decode buf = (Except.ok (some buf), ([] : List Nat))) ∧
    (buf = [] → BytesCodec.decode buf = (Except.ok none, buf)) := by
  refine ⟨?_, ?_, ?_⟩
  · intro e
    unfold BytesCodec.decode
    split <;> simp
  · intro h
    unfold BytesCodec.decode
    rw [if_neg (by simp [List.isEmpty_iff, h])]
  · intro h
    subst h
    rfl

/-- Witness for C9 at buffers `[7]` and `[]`. -/
theorem bytesCodec_decode_spec_witness :
    (BytesCodec.decode [7]).1 ≠ Except.error trailingBytesError ∧
    BytesCodec.decode [7] = (Except.ok (some [7]), ([] : List Nat)) ∧
    BytesCodec.decode [] = (Except.ok none, ([] : List Nat)) :=
  ⟨(bytesCodec_decode_spec [7]).1 trailingBytesError,
   (bytesCodec_decode_spec [7]).2.1 (by decide),
   (bytesCodec_decode_spec []).2.2 rfl⟩

/-- Claim C5: The `ReadBuf` invariant `filled ≤ initialized ≤ capacity` holds
after construction (`uninit`) and is preserved by `initialize_unfilled_to`
and `initialize_unfilled`; across these operations `filled` is unchanged and
`initialized` never decreases.  (`capacity`, `filled`, `remaining` are pure
observers in this embedding and mutate nothing.) -/
theorem readBuf_invariant (b : List (Option Nat)) (rb rb' : ReadBuf) (n : Nat)
    (s : List Nat) :
    ((ReadBuf.uninit b).wf ∧ (ReadBuf.uninit b).filled = 0 ∧
      (ReadBuf.uninit b).initialized = 0) ∧
    (rb.wf → rb.initUnfilledTo n = some (rb', s) →
      rb'.wf ∧ rb'.filled = rb.filled ∧ rb.initialized ≤ rb'.initialized ∧
      rb'.capacity = rb.capacity) ∧
    (rb.wf → rb.initUnfilled = some (rb', s) →
      rb'.wf ∧ rb'.filled = rb.filled ∧ rb.initialized ≤ rb'.initialized ∧
      rb'.capacity = rb.capacity) := by
  have key : ∀ (m : Nat), rb.wf → rb.initUnfilledTo m = some (rb', s) →
      rb'.wf ∧ rb'.filled = rb.filled ∧ rb.initialized ≤ rb'.initialized ∧
      rb'.capacity = rb.capacity := by
    intro m hwf heq
    obtain ⟨hf, hlen, hinit, hwf', -, -, -, -⟩ := ReadBuf.initUnfilledTo_props hwf heq
    refine ⟨hwf', hf, by rw [hinit]; omega, ?_⟩
    unfold ReadBuf.capacity
    rw [hlen]
  refine ⟨⟨⟨Nat.le_refl 0, Nat.zero_le _, fun i hi => absurd hi (Nat.not_lt_zero i)⟩,
    rfl, rfl⟩, key n, key rb.remaining⟩

/-- Witness for C5: a one-cell uninitialized buffer, claimed in full. -/
theorem readBuf_invariant_witness :
    (ReadBuf.uninit [Option.none]).wf ∧
    (ReadBuf.mk [some 0] 0 1).wf ∧
    (ReadBuf.mk [some 0] 0 1).capacity = (ReadBuf.uninit [Option.none]).capacity := by
  have h := readBuf_invariant [Option.none] (ReadBuf.uninit [Option.none])
    (ReadBuf.mk [some 0] 0 1) 1 [0]
  have h2 := h.2.1 (by decide) (by decide)
  exact ⟨h.1.1, h2.1, h2.2.2.2⟩

/-- Claim C6: For `n ≤ remaining()`, `initialize_unfilled_to(n)` succeeds and
returns the slice covering exactly the `n` bytes at `[filled, filled + n)`
(each backed by an initialized cell with the same value); afterwards
`initialized ≥ filled + n`, every previously-uninitialized position in
`[old initialized, filled + n)` is zero, and positions below the old
`initialized` offset are untouched. -/
theorem initUnfilledTo_spec (rb : ReadBuf) (n : Nat) (rb' : ReadBuf) (s : List Nat)
    (hwf : rb.wf) (hn : n ≤ rb.remaining) (heq : rb.initUnfilledTo n = some (rb', s)) :
    s.length = n ∧
    (∀ i, i < n → rb'.buf[rb.filled + i]? = some (some (s.getD i 0))) ∧
    rb.filled + n ≤ rb'.initialized ∧
    (∀ i, rb.initialized ≤ i → i < rb.filled + n → rb'.buf[i]? = some (some 0)) ∧
    (∀ i, i < rb.initialized → rb'.buf[i]? = rb.buf[i]?) := by
  obtain ⟨-, -, hinit, -, hslen, hcover, hzero, hkeep⟩ :=
    ReadBuf.initUnfilledTo_props hwf heq
  exact ⟨hslen, hcover, by rw [hinit]; omega, hzero, hkeep⟩

/-- Witness for C6: `filled = 1`, `initialized = 1`, capacity 3, `n = 2`. -/
theorem initUnfilledTo_spec_witness :
    ([0, 0] : List Nat).length = 2 ∧
    (ReadBuf.mk [some 5, some 0, some 0] 1 3).buf[2]? = some (some 0) := by
  have h := initUnfilledTo_spec (ReadBuf.mk [some 5, Option.none, Option.none] 1 1) 2
    (ReadBuf.mk [some 5, some 0, some 0] 1 3) [0, 0] (by decide) (by decide) (by decide)
  exact ⟨h.1, h.2.2.2.1 2 (by decide) (by decide)⟩

/-- Claim C7: `initialize_unfilled_to(n)` panics (returns `none` in this
embedding) iff `n > remaining()`; under `n ≤ remaining()` the sum
`filled + n` stays within `capacity`, so the `usize` addition cannot
overflow. -/
theorem initUnfilledTo_panic_iff (rb : ReadBuf) (n : Nat) :
    (rb.initUnfilledTo n = none ↔ rb.remaining < n) ∧
    (rb.wf → n ≤ rb.remaining → rb.filled + n ≤ rb.capacity) := by
  refine ⟨ReadBuf.initUnfilledTo_none_iff rb n, ?_⟩
  intro hwf hn
  obtain ⟨hfi, hil, -⟩ := hwf
  unfold ReadBuf.remaining ReadBuf.capacity at *
  omega

/-- Witness for C7: the panic side at `n = 2` on a one-cell buffer, the
no-overflow side at `n = 1`. -/
theorem initUnfilledTo_panic_iff_witness :
    (ReadBuf.uninit [Option.none]).initUnfilledTo 2 = none ∧
    (ReadBuf.uninit [Option.none]).filled + 1 ≤ (ReadBuf.uninit [Option.none]).capacity := by
  have h := initUnfilledTo_panic_iff (ReadBuf.uninit [Option.none]) 2
  have h1 := initUnfilledTo_panic_iff (ReadBuf.uninit [Option.none]) 1
  exact ⟨h.1.mpr (by decide), h1.2 (by decide) (by decide)⟩

/-- Claim C10: `initialize_unfilled` never panics — it claims exactly
`remaining()` bytes, which always satisfies the precondition — and afterwards
the whole capacity region is initialized. -/
theorem initUnfilled_total (rb : ReadBuf) :
    (rb.initUnfilled).isSome = true ∧
    (rb.wf → ∀ rb' s, rb.initUnfilled = some (rb', s) →
      rb'.initialized = rb'.capacity) := by
  constructor
  · unfold ReadBuf.initUnfilled
    rw [ReadBuf.initUnfilledTo_some_eq rb rb.remaining (by omega)]
    rfl
  · intro hwf rb' s heq
    unfold ReadBuf.initUnfilled at heq
    obtain ⟨-, hlen, hinit, -, -, -, -, -⟩ := ReadBuf.initUnfilledTo_props hwf heq
    obtain ⟨hfi, hil, -⟩ := hwf
    unfold ReadBuf.capacity
    rw [hinit, hlen]
    unfold ReadBuf.remaining ReadBuf.capacity
    omega

/-- Witness for C10 on a two-cell uninitialized buffer. -/
theorem initUnfilled_total_witness :
    ((ReadBuf.uninit [Option.none, Option.none]).initUnfilled).isSome = true ∧
    (ReadBuf.mk [some 0, some 0] 0 2).initialized =
      (ReadBuf.mk [some 0, some 0] 0 2).capacity := by
  have h := initUnfilled_total (ReadBuf.uninit [Option.none, Option.none])
  exact ⟨h.1, h.2 (by decide) (ReadBuf.mk [some 0, some 0] 0 2) [0, 0] (by decide)⟩

/-- Claim C2: `poll_read_buf`: with no spare capacity it returns `Ready(Ok(0))`
for every I/O object (so the I/O object is never consulted); otherwise it
hands the I/O object exactly the zero-initialized unfilled tail region, and a
successful read of `n` bytes (`n` within the reader's output) grows the
buffer's logical length by exactly `n`. -/
theorem poll_read_buf_spec (io : List Nat → PollR (Except IOError (Nat × List Nat)))
    (buf : BytesMutModel) :
    (buf.cap - buf.data.length = 0 →
      poll_read_buf io buf = some (PollR.ready (Except.ok 0), buf)) ∧
    (∀ n w, buf.data.length < buf.cap →
      io (List.replicate (buf.cap - buf.data.length) 0) = PollR.ready (Except.ok (n, w)) →
      n ≤ w.length →
      poll_read_buf io buf =
        some (PollR.ready (Except.ok n), BytesMutModel.mk (buf.data ++ w.take n) buf.cap) ∧
      (buf.data ++ w.take n).length = buf.data.length + n) := by
  constructor
  · intro h
    unfold poll_read_buf
    rw [if_pos h]
  · intro n w hrem hio hn
    unfold poll_read_buf
    rw [if_neg (by omega), ReadBuf.uninit_initUnfilled_eq (buf.cap - buf.data.length)]
    simp only
    rw [hio]
    refine ⟨rfl, ?_⟩
    simp only [List.length_append, List.length_take]
    omega

/-- Witness for C2: an echo reader delivering one byte into spare capacity,
and a full buffer short-circuiting to `Ok(0)`. -/
theorem poll_read_buf_spec_witness :
    poll_read_buf (fun s => PollR.ready (Except.ok (1, s))) (BytesMutModel.mk [9] 3) =
      some (PollR.ready (Except.ok 1), BytesMutModel.mk [9, 0] 3) ∧
    poll_read_buf (fun s => PollR.ready (Except.ok (1, s))) (BytesMutModel.mk [1, 2] 2) =
      some (PollR.ready (Except.ok 0), BytesMutModel.mk [1, 2] 2) := by
  have h := (poll_read_buf_spec (fun s => PollR.ready (Except.ok (1, s)))
    (BytesMutModel.mk [9] 3)).2 1 [0, 0] (by decide) rfl (by decide)
  have h0 := (poll_read_buf_spec (fun s => PollR.ready (Except.ok (1, s)))
    (BytesMutModel.mk [1, 2] 2)).1 (by decide)
  exact ⟨h.1, h0⟩

/-- Claim C3: `poll_write_buf`: with no unread bytes it returns `Ready(Ok(0))`
for every I/O object; otherwise it presents at most `MAX_BUFS = 64` of the
buffer's contiguous segments in one vectored attempt, and on acceptance of
`n` bytes advances the read cursor by exactly `n`. -/
theorem poll_write_buf_spec (io : List (List Nat) → PollR (Except IOError Nat))
    (buf : BufModel) :
    (buf.remainingBytes = 0 → poll_write_buf io buf = (PollR.ready (Except.ok 0), buf)) ∧
    (buf.chunks.take MAX_BUFS).length ≤ 64 ∧
    (∀ n, 0 < buf.remainingBytes →
      io (buf.chunks.take MAX_BUFS) = PollR.ready (Except.ok n) →
      n ≤ buf.remainingBytes →
      poll_write_buf io buf =
        (PollR.ready (Except.ok n), BufModel.mk (advanceChunks buf.chunks n)) ∧
      (BufModel.mk (advanceChunks buf.chunks n)).remainingBytes =
        buf.remainingBytes - n) := by
  refine ⟨?_, ?_, ?_⟩
  · intro h
    unfold poll_write_buf
    rw [if_pos h]
  · simp only [List.length_take, MAX_BUFS]
    omega
  · intro n hrem hio hn
    unfold poll_write_buf
    rw [if_neg (by omega), hio]
    refine ⟨rfl, ?_⟩
    unfold BufModel.remainingBytes
    rw [advanceChunks_flatten, List.length_drop]

/-- Witness for C3: two segments, two bytes accepted, and the empty buffer
short-circuit. -/
theorem poll_write_buf_spec_witness :
    poll_write_buf (fun _ => PollR.ready (Except.ok 2)) (BufModel.mk [[1, 2], [3]]) =
      (PollR.ready (Except.ok 2), BufModel.mk [[3]]) ∧
    (BufModel.mk [[3]]).remainingBytes = 1 ∧
    poll_write_buf (fun _ => PollR.ready (Except.ok 2)) (BufModel.mk []) =
      (PollR.ready (Except.ok 0), BufModel.mk []) := by
  have h := (poll_write_buf_spec (fun _ => PollR.ready (Except.ok 2))
    (BufModel.mk [[1, 2], [3]])).2.2 2 (by decide) rfl (by decide)
  have h0 := (poll_write_buf_spec (fun _ => PollR.ready (Except.ok 2))
    (BufModel.mk [])).1 (by decide)
  exact ⟨h.1, h.2, h0⟩

/-- Claim C4: For both adapter functions, a `Pending` I/O object or an I/O
error leaves the buffer's logical state unchanged, and the error is returned
to the caller unchanged; each function makes a single attempt (the model
returns immediately, no retry). -/
theorem poll_no_mutation_on_pending_or_error
    (rio : List Nat → PollR (Except IOError (Nat × List Nat)))
    (wio : List (List Nat) → PollR (Except IOError Nat))
    (rbuf : BytesMutModel) (wbuf : BufModel) :
    (rbuf.data.length < rbuf.cap →
      rio (List.replicate (rbuf.cap - rbuf.data.length) 0) = PollR.pending →
      poll_read_buf rio rbuf = some (PollR.pending, rbuf)) ∧
    (∀ e, rbuf.data.length < rbuf.cap →
      rio (List.replicate (rbuf.cap - rbuf.data.length) 0) = PollR.ready (Except.error e) →
      poll_read_buf rio rbuf = some (PollR.ready (Except.error e), rbuf)) ∧
    (0 < wbuf.remainingBytes → wio (wbuf.chunks.take MAX_BUFS) = PollR.pending →
      poll_write_buf wio wbuf = (PollR.pending, wbuf)) ∧
    (∀ e, 0 < wbuf.remainingBytes →
      wio (wbuf.chunks.take MAX_BUFS) = PollR.ready (Except.error e) →
      poll_write_buf wio wbuf = (PollR.ready (Except.error e), wbuf)) := by
  refine ⟨?_, ?_, ?_, ?_⟩
  · intro hrem hio
    unfold poll_read_buf
    rw [if_neg (by omega), ReadBuf.uninit_initUnfilled_eq (rbuf.cap - rbuf.data.length)]
    simp only
    rw [hio]
  · intro e hrem hio
    unfold poll_read_buf
    rw [if_neg (by omega), ReadBuf.uninit_initUnfilled_eq (rbuf.cap - rbuf.data.length)]
    simp only
    rw [hio]
  · intro hrem hio
    unfold poll_write_buf
    rw [if_neg (by omega), hio]
  · intro e hrem hio
    unfold poll_write_buf
    rw [if_neg (by omega), hio]

/-- Witness for C4: pending and erroring I/O objects on both sides. -/
theorem poll_no_mutation_witness :
    poll_read_buf (fun _ => PollR.pending) (BytesMutModel.mk [5] 2) =
      some (PollR.pending, BytesMutModel.mk [5] 2) ∧
    poll_read_buf (fun _ => PollR.ready (Except.error trailingBytesError))
        (BytesMutModel.mk [5] 2) =
      some (PollR.ready (Except.error trailingBytesError), BytesMutModel.mk [5] 2) ∧
    poll_write_buf (fun _ => PollR.pending) (BufModel.mk [[7]]) =
      (PollR.pending, BufModel.mk [[7]]) ∧
    poll_write_buf (fun _ => PollR.ready (Except.error trailingBytesError))
        (BufModel.mk [[7]]) =
      (PollR.ready (Except.error trailingBytesError), BufModel.mk [[7]]) := by
  refine ⟨?_, ?_, ?_, ?_⟩
  · exact (poll_no_mutation_on_pending_or_error (fun _ => PollR.pending)
      (fun _ => PollR.pending) (BytesMutModel.mk [5] 2) (BufModel.mk [[7]])).1
      (by decide) rfl
  · exact (poll_no_mutation_on_pending_or_error
      (fun _ => PollR.ready (Except.error trailingBytesError))
      (fun _ => PollR.pending) (BytesMutModel.mk [5] 2) (BufModel.mk [[7]])).2.1
      trailingBytesError (by decide) rfl
  · exact (poll_no_mutation_on_pending_or_error (fun _ => PollR.pending)
      (fun _ => PollR.pending) (BytesMutModel.mk [5] 2) (BufModel.mk [[7]])).2.2.1
      (by decide) rfl
  · exact (poll_no_mutation_on_pending_or_error (fun _ => PollR.pending)
      (fun _ => PollR.ready (Except.error trailingBytesError)) (BytesMutModel.mk [5] 2)
      (BufModel.mk [[7]])).2.2.2 trailingBytesError (by decide) rfl

end Framed
